import Mathlib

/-!
Verification of the counter classes in `src/quant_sig.cpp` (snipe-bio
plugin-hashes-counter).

Shallow embedding choices:
* Each `phmap::parallel_flat_hash_map` is modelled as an association list
  `List (Key × β)` whose entries are the map's (key, value) pairs.  All the
  operations the claims are about (lookup, conditional erase, size, export)
  are order-independent, so the list order is immaterial; key uniqueness is
  an invariant of states built by the operations and is taken as an explicit
  hypothesis where a theorem needs it.
* `uint64_t` hash keys are opaque identifiers, modelled as `Nat`.
* `uint32_t` counters are modelled as `Nat` with wrap-around `% 2^32` at each
  increment, matching unsigned overflow.
* `float`/`double` arithmetic is modelled exactly over `ℚ` (the idealised
  value semantics of the arithmetic expressions in the source); the source's
  `abundances[i] * inv_mean_abundance` with `inv_mean_abundance = 1.0f/mean`
  becomes `a * (1 / m)`.  Where a claim's truth depends on the binary32
  rounding of that reciprocal-multiply (C7), the rounding is modelled
  explicitly by `rn32`/`floatContribution` below.
* A C++ function that can throw or run into undefined behaviour returns a
  `CppOutcome`: `.ok st`, `.thrown msg st` (the exception message and the
  state of the object at the moment of the throw), or `.undefinedBehavior` for undefined
  behaviour such as an out-of-bounds `std::vector` read.
-/

set_option autoImplicit false

namespace QuantSig

abbrev Key := Nat

/-- The modulus `2^32` of `uint32_t` arithmetic. -/
def U32 : Nat := 4294967296

/-- Outcome of running a C++ member function: normal return, a thrown
`std::invalid_argument` (with the message and the object state at the throw),
or undefined behaviour. -/
inductive CppOutcome (σ : Type) where
  | ok : σ → CppOutcome σ
  | thrown : String → σ → CppOutcome σ
  | undefinedBehavior : CppOutcome σ
  deriving Repr, DecidableEq

/-- Whether the call ended in a thrown exception. -/
def CppOutcome.isThrown {σ : Type} : CppOutcome σ → Bool
  | .thrown _ _ => true
  | _ => false

/-- Whether the call returned normally. -/
def CppOutcome.isOk {σ : Type} : CppOutcome σ → Bool
  | .ok _ => true
  | _ => false

/-- First-match lookup in an association list (the model of `find`
/`operator[]` reads on the hash map). -/
def lookupAssoc {β : Type} : List (Key × β) → Key → Option β
  | [], _ => none
  | e :: rest, k => if e.1 = k then some e.2 else lookupAssoc rest k

/-- Model of `m[k] = v`: overwrite the value at `k`, or insert `(k, v)` if absent. -/
def setAssoc {β : Type} : List (Key × β) → Key → β → List (Key × β)
  | [], k, v => [(k, v)]
  | e :: rest, k, v => if e.1 = k then (k, v) :: rest else e :: setAssoc rest k v

/-- Model of `static_cast<uint32_t>(f)` on a non-negative float value in range:
truncation toward zero.  (The C++ cast is undefined for negative or
out-of-range values; the claims only exercise in-range non-negative scores.) -/
def truncU32 (q : ℚ) : Nat := (Rat.floor q).toNat

/-- Model of `std::round`: round half away from zero. -/
def cppRound (q : ℚ) : ℤ :=
  if q < 0 then -Rat.floor (-q + 1 / 2) else Rat.floor (q + 1 / 2)

/-- Round to nearest integer, ties to even: the IEEE-754 default rounding
mode used by binary32 (`float`) arithmetic. -/
def rne (q : ℚ) : ℤ :=
  if 2 * Int.fract q = 1 then (if Even ⌊q⌋ then ⌊q⌋ else ⌊q⌋ + 1) else round q

/-- Binary32 (`float`) rounding of a rational in the normal range: round to
nearest even at 24 significand bits.  (Overflow and subnormals lie outside
every input the claims exercise.) -/
def rn32 (q : ℚ) : ℚ :=
  if q = 0 then 0
  else if q < 0 then
    -((rne (-q * 2 ^ (23 - Int.log 2 (-q))) : ℚ) * 2 ^ (Int.log 2 (-q) - 23))
  else ((rne (q * 2 ^ (23 - Int.log 2 q)) : ℚ) * 2 ^ (Int.log 2 q - 23))

/-- The binary32 value of the per-contribution score the weighted counters
compute: `abundances[i] * inv_mean_abundance` with
`inv_mean_abundance = 1.0f / mean_abundance`, the division and the
multiplication each rounded to float (the operands are floats already). -/
def floatContribution (a m : ℚ) : ℚ := rn32 (a * rn32 (1 / m))

/-! ### Iterator-level model of the prune loops

`phmap`'s (abseil-style) iterator contract: `erase(it)` invalidates `it`;
the idiom `it = container.erase(it)` leaves a *valid* cursor positioned on
the element after the erased one; incrementing an iterator that was
invalidated by an erase is undefined behaviour.  Each prune loop in the
source performs, per visited element, one of three cursor moves, read off
directly from its loop body. -/

/-- The cursor move a prune-loop iteration performs on the element under the
cursor. -/
inductive IterAction where
  /-- keep the element and advance: `++it`. -/
  | adv
  /-- `it = container.erase(it)`: erase the current element; the cursor lands
  on its successor and stays valid. -/
  | eraseAdv
  /-- `container.erase(it)` discarding the returned iterator, then `++it` on
  the now-invalidated cursor: undefined behaviour. -/
  | eraseDangle
  deriving Repr, DecidableEq

/-- Run a prune loop over all elements.  `act e` is the cursor move the loop
body performs when the cursor is on `e`.  Returns `none` exactly when the
loop increments an invalidated cursor (undefined behaviour), otherwise the
list of surviving elements. -/
def runPrune {β : Type} (act : Key × β → IterAction) : List (Key × β) → Option (List (Key × β))
  | [] => some []
  | e :: rest =>
    match act e with
    | .adv => (runPrune act rest).map (fun l => e :: l)
    | .eraseAdv => runPrune act rest
    | .eraseDangle => none

/-! ## `HashesCounter` (presence counting) -/

namespace HashesCounter

/-- The `hash_to_count` map: hash → `uint32_t` occurrence count. -/
abbrev State := List (Key × Nat)

/-- Model of `hash_to_count[hash_val]++`: `operator[]` default-inserts 0, then the
`uint32_t` increment wraps mod `2^32`. -/
def bump : State → Key → State
  | [], h => [(h, (0 + 1) % U32)]
  | e :: rest, h =>
      if e.1 = h then (e.1, (e.2 + 1) % U32) :: rest else e :: bump rest h

/-- Model of `HashesCounter::add_hashes`. -/
def add_hashes (st : State) (hashes : List Key) : State := hashes.foldl bump st

/-- Value semantics of `HashesCounter::remove_singletons`: erase every entry
with count exactly 1, return (surviving map, number erased). -/
def remove_singletons : State → State × Nat
  | [] => ([], 0)
  | e :: rest =>
      let r := remove_singletons rest
      if e.2 = 1 then (r.1, r.2 + 1) else (e :: r.1, r.2)

/-- Value semantics of `HashesCounter::keep_min_abundance`: erase every entry
with count `< min_abundance`. -/
def keep_min_abundance (min_abundance : Nat) : State → State
  | [] => []
  | e :: rest =>
      if e.2 < min_abundance then keep_min_abundance min_abundance rest
      else e :: keep_min_abundance min_abundance rest

/-- Model of `HashesCounter::size`. -/
def size (st : State) : Nat := st.length

/-- Model of `HashesCounter::get_kmers`: copy of the surviving entries. -/
def get_kmers (st : State) : State := st

/-- The cursor move of the `remove_singletons` loop, read off the source:
`if (it->second == 1) { it = hash_to_count.erase(it); ... } else { ++it; }`. -/
def removeSingletonsAction (e : Key × Nat) : IterAction :=
  if e.2 = 1 then .eraseAdv else .adv

/-- The cursor move of the `keep_min_abundance` loop, read off the source:
`if (it->second < min_abundance) { it = hash_to_count.erase(it); } else { ++it; }`. -/
def keepMinAction (min_abundance : Nat) (e : Key × Nat) : IterAction :=
  if e.2 < min_abundance then .eraseAdv else .adv

end HashesCounter

/-! ## `WeightedHashesCounter` (capped weighted scoring) and its uncapped
subclass -/

namespace WeightedHashesCounter

/-- The `hash_to_score` accumulator map: hash → float score. -/
abbrev Score := List (Key × ℚ)

/-- Full state: the finalized-count map `hash_to_count` and the accumulator
map `hash_to_score`. -/
structure WState where
  hash_to_count : List (Key × Nat)
  hash_to_score : Score
  deriving Repr, DecidableEq

/-- Model of `hash_to_score[h] += s`: `operator[]` default-inserts `0.0f`, then adds. -/
def bumpScore : Score → Key → ℚ → Score
  | [], h, s => [(h, 0 + s)]
  | e :: rest, h, s =>
      if e.1 = h then (e.1, e.2 + s) :: rest else e :: bumpScore rest h s

/-- The score currently accumulated for `h` (0 when absent, matching the
`operator[]` default). -/
def scoreOf (st : Score) (h : Key) : ℚ := (lookupAssoc st h).getD 0

/-- The loop of `WeightedHashesCounter::add_hashes`: for each `i <
hashes.size()`, `score = abundances[i] * inv_mean_abundance`; add 2 when
`score >= 2`, else add `score`.  Reading `abundances[i]` past the end of
`abundances` is an out-of-bounds `std::vector` access: undefined behaviour. -/
def addLoop (m : ℚ) : List Key → List ℚ → Score → CppOutcome Score
  | [], _, st => .ok st
  | _ :: _, [], _ => .undefinedBehavior
  | h :: hs, a :: as, st =>
      let score := a * (1 / m)
      if 2 ≤ score then addLoop m hs as (bumpScore st h 2)
      else addLoop m hs as (bumpScore st h score)

/-- Model of `WeightedHashesCounter::add_hashes`.  Note: the source performs no length
check whatsoever before the loop. -/
def add_hashes (st : Score) (hashes : List Key) (abundances : List ℚ)
    (mean_abundance : ℚ) : CppOutcome Score :=
  addLoop mean_abundance hashes abundances st

/-- One iteration of the `round_scores` loop, value-level: truncate the
score; if the truncated value is `> 1`, store it in `hash_to_count`,
otherwise increment the skip counter.  (Every score entry is erased; the
cursor soundness of that erasure is modelled separately by
`roundScoresAction`.) -/
def roundStep (acc : List (Key × Nat) × Nat) (e : Key × ℚ) :
    List (Key × Nat) × Nat :=
  let rounded_score := truncU32 e.2
  if 1 < rounded_score then (setAssoc acc.1 e.1 rounded_score, acc.2)
  else (acc.1, acc.2 + 1)

/-- Value semantics of `WeightedHashesCounter::round_scores`: process every
score entry with `roundStep`, leaving `hash_to_score` empty; returns the new
state and the skip counter. -/
def round_scores (s : WState) : WState × Nat :=
  let r := s.hash_to_score.foldl roundStep (s.hash_to_count, 0)
  (⟨r.1, []⟩, r.2)

/-- Model of `WeightedHashesCounter::get_kmers`: copy of the finalized-count map. -/
def get_kmers (s : WState) : List (Key × Nat) := s.hash_to_count

/-- Model of `WeightedHashesCounter::size`. -/
def size (s : WState) : Nat := s.hash_to_count.length

/-- Model of `WeightedHashesCounter::keep_min_abundance`, same loop as the presence
counter's, applied to the finalized-count map. -/
def keep_min_abundance (min_abundance : Nat) (s : WState) : WState :=
  ⟨HashesCounter.keep_min_abundance min_abundance s.hash_to_count,
   s.hash_to_score⟩

/-- The cursor move of the `WeightedHashesCounter::round_scores` loop, read
off the source: the loop body ends with `hash_to_score.erase(it);` (return
value discarded) and the `for` header then executes `++it` on the erased,
invalidated cursor — on every visited element, whatever its score. -/
def roundScoresAction (_e : Key × ℚ) : IterAction := .eraseDangle

/-- The per-entry decision of `round_scores`: the entry survives into
`hash_to_count` with its truncated score exactly when that truncation is
`> 1`. -/
def finalizeEntry (e : Key × ℚ) : Option (Key × Nat) :=
  if 1 < truncU32 e.2 then some (e.1, truncU32 e.2) else none

/-- The per-index amount the capped `add_hashes` adds to the hash's score:
exactly the cap (2) when the normalized abundance is `>= 2`, otherwise the
normalized abundance itself. -/
def cappedContribution (m a : ℚ) : ℚ :=
  if 2 ≤ a * (1 / m) then 2 else a * (1 / m)

/-- Apply a list of per-hash score contributions in order. -/
def applyScores (st : Score) : List (Key × ℚ) → Score
  | [] => st
  | e :: rest => applyScores (bumpScore st e.1 e.2) rest

end WeightedHashesCounter

namespace WeightedHashesCounterUncapped

open WeightedHashesCounter

/-- The loop of `WeightedHashesCounterUncapped::add_hashes`: always add
`abundances[i] * inv_mean_abundance`, unbounded. -/
def addLoop (m : ℚ) : List Key → List ℚ → Score → CppOutcome Score
  | [], _, st => .ok st
  | _ :: _, [], _ => .undefinedBehavior
  | h :: hs, a :: as, st => addLoop m hs as (bumpScore st h (a * (1 / m)))

/-- Model of `WeightedHashesCounterUncapped::add_hashes` (no length check either). -/
def add_hashes (st : Score) (hashes : List Key) (abundances : List ℚ)
    (mean_abundance : ℚ) : CppOutcome Score :=
  addLoop mean_abundance hashes abundances st

end WeightedHashesCounterUncapped

/-! ## `SamplesKmerDosageHybridCounter` -/

namespace SamplesKmerDosageHybridCounter

/-- The `hash_to_count` map: hash → (`uint32_t` sample count, float dosage). -/
abbrev HState := List (Key × (Nat × ℚ))

/-- Model of `try_emplace(h, 1, d)` followed, when the key was present, by
`std::get<0>(it->second)++; std::get<1>(it->second) += d;`. -/
def tryEmplaceBump : HState → Key → ℚ → HState
  | [], h, d => [(h, (1, d))]
  | e :: rest, h, d =>
      if e.1 = h then (e.1, ((e.2.1 + 1) % U32, e.2.2 + d)) :: rest
      else e :: tryEmplaceBump rest h d

/-- The loop of `SamplesKmerDosageHybridCounter::add_hashes`: compute the
dosage, throw on a negative dosage (leaving earlier iterations applied),
otherwise emplace-or-bump. -/
def addLoop (m : ℚ) : List Key → List ℚ → HState → CppOutcome HState
  | [], _, st => .ok st
  | _ :: _, [], _ => .undefinedBehavior
  | h :: hs, a :: as, st =>
      let kmer_dosage := a * (1 / m)
      if kmer_dosage < 0 then .thrown "kmer_dosage cannot be negative." st
      else addLoop m hs as (tryEmplaceBump st h kmer_dosage)

/-- Model of `SamplesKmerDosageHybridCounter::add_hashes`: the length check runs
before any state mutation. -/
def add_hashes (st : HState) (hashes : List Key) (abundances : List ℚ)
    (mean_abundance : ℚ) : CppOutcome HState :=
  if hashes.length ≠ abundances.length then
    .thrown "hashes and abundances vectors must be of the same size." st
  else addLoop mean_abundance hashes abundances st

/-- Apply the (already validated) loop body of `add_hashes` to a batch given
as parallel lists, with no throw: the pure accumulation. -/
def applyBatch (m : ℚ) : List Key → List ℚ → HState → HState
  | [], _, st => st
  | _ :: _, [], st => st
  | h :: hs, a :: as, st => applyBatch m hs as (tryEmplaceBump st h (a * (1 / m)))

/-- A whole ingestion history: run `add_hashes` once per batch
`(hashes, abundances, mean_abundance)`, propagating exceptions. -/
def ingestAll : List (List Key × List ℚ × ℚ) → HState → CppOutcome HState
  | [], st => .ok st
  | b :: bs, st =>
      match add_hashes st b.1 b.2.1 b.2.2 with
      | .ok st1 => ingestAll bs st1
      | .thrown msg s => .thrown msg s
      | .undefinedBehavior => .undefinedBehavior

/-- Model of `SamplesKmerDosageHybridCounter::size`. -/
def size (st : HState) : Nat := st.length

/-- Value semantics of `SamplesKmerDosageHybridCounter::round_scores`: erase
every record with sample count `< 2`, return (survivors, number erased). -/
def round_scores : HState → HState × Nat
  | [] => ([], 0)
  | e :: rest =>
      let r := round_scores rest
      if e.2.1 < 2 then (r.1, r.2 + 1) else (e :: r.1, r.2)

/-- Model of `SamplesKmerDosageHybridCounter::get_kmers`: dosage rounded to nearest
(`std::round`) and cast to `uint32_t` at export. -/
def get_kmers (st : HState) : List (Key × (Nat × Nat)) :=
  st.map (fun e => (e.1, (e.2.1, (cppRound e.2.2).toNat)))

/-- Model of `SamplesKmerDosageHybridCounter::get_hashes`. -/
def get_hashes (st : HState) : List Key := st.map (fun e => e.1)

/-- Model of `SamplesKmerDosageHybridCounter::get_sample_counts`. -/
def get_sample_counts (st : HState) : List Nat := st.map (fun e => e.2.1)

/-- Model of `SamplesKmerDosageHybridCounter::get_kmer_dosages`: rounding to nearest
happens here, at export, not in `round_scores`. -/
def get_kmer_dosages (st : HState) : List Nat :=
  st.map (fun e => (cppRound e.2.2).toNat)

/-- The stored sample count of `h`, when present. -/
def sampleCountOf (st : HState) (h : Key) : Option Nat :=
  (lookupAssoc st h).map Prod.fst

/-- The cursor move of the hybrid `round_scores` loop, read off the source:
`if (count < 2) { ...; it = hash_to_count.erase(it); } else { ++it; }`. -/
def roundScoresAction (e : Key × (Nat × ℚ)) : IterAction :=
  if e.2.1 < 2 then .eraseAdv else .adv

end SamplesKmerDosageHybridCounter

/-! ## Helper lemmas -/

theorem remove_singletons_eq (st : HashesCounter.State) :
    HashesCounter.remove_singletons st
      = (st.filter (fun e => !decide (e.2 = 1)), st.countP (fun e => decide (e.2 = 1))) := by
  induction st with
  | nil => rfl
  | cons e rest ih =>
      by_cases h : e.2 = 1 <;>
        simp [HashesCounter.remove_singletons, h, ih, List.filter_cons, List.countP_cons]

theorem keep_min_eq (t : Nat) (st : HashesCounter.State) :
    HashesCounter.keep_min_abundance t st = st.filter (fun e => !decide (e.2 < t)) := by
  induction st with
  | nil => rfl
  | cons e rest ih =>
      by_cases h : e.2 < t <;>
        simp [HashesCounter.keep_min_abundance, h, ih, List.filter_cons]

theorem hybrid_round_scores_eq (st : SamplesKmerDosageHybridCounter.HState) :
    SamplesKmerDosageHybridCounter.round_scores st
      = (st.filter (fun e => !decide (e.2.1 < 2)), st.countP (fun e => decide (e.2.1 < 2))) := by
  induction st with
  | nil => rfl
  | cons e rest ih =>
      by_cases h : e.2.1 < 2 <;>
        simp [SamplesKmerDosageHybridCounter.round_scores, h, ih, List.filter_cons,
          List.countP_cons]

theorem filter_length_sub {α : Type} (p : α → Bool) (l : List α) :
    (l.filter p).length = l.length - l.countP (fun a => !p a) := by
  induction l with
  | nil => rfl
  | cons a l ih =>
      have hle : l.countP (fun a => !p a) ≤ l.length := l.countP_le_length _
      by_cases h : p a
      · simp [List.filter_cons, List.countP_cons, h, ih]
        omega
      · simp [List.filter_cons, List.countP_cons, h, ih]

theorem runPrune_removeSingletons (st : HashesCounter.State) :
    runPrune HashesCounter.removeSingletonsAction st
      = some (HashesCounter.remove_singletons st).1 := by
  induction st with
  | nil => rfl
  | cons e rest ih =>
      by_cases h : e.2 = 1 <;>
        simp [runPrune, HashesCounter.removeSingletonsAction,
          HashesCounter.remove_singletons, h, ih]

theorem runPrune_keepMin (t : Nat) (st : HashesCounter.State) :
    runPrune (HashesCounter.keepMinAction t) st
      = some (HashesCounter.keep_min_abundance t st) := by
  induction st with
  | nil => rfl
  | cons e rest ih =>
      by_cases h : e.2 < t <;>
        simp [runPrune, HashesCounter.keepMinAction,
          HashesCounter.keep_min_abundance, h, ih]

theorem runPrune_hybridRound (st : SamplesKmerDosageHybridCounter.HState) :
    runPrune SamplesKmerDosageHybridCounter.roundScoresAction st
      = some (SamplesKmerDosageHybridCounter.round_scores st).1 := by
  induction st with
  | nil => rfl
  | cons e rest ih =>
      by_cases h : e.2.1 < 2 <;>
        simp [runPrune, SamplesKmerDosageHybridCounter.roundScoresAction,
          SamplesKmerDosageHybridCounter.round_scores, h, ih]

theorem capped_addLoop_not_thrown (m : ℚ) (hs : List Key) (as : List ℚ)
    (st : WeightedHashesCounter.Score) :
    (WeightedHashesCounter.addLoop m hs as st).isThrown = false := by
  induction hs generalizing as st with
  | nil => rfl
  | cons h hs ih =>
      cases as with
      | nil => rfl
      | cons a as =>
          simp only [WeightedHashesCounter.addLoop]
          split <;> exact ih _ _

theorem uncapped_addLoop_not_thrown (m : ℚ) (hs : List Key) (as : List ℚ)
    (st : WeightedHashesCounter.Score) :
    (WeightedHashesCounterUncapped.addLoop m hs as st).isThrown = false := by
  induction hs generalizing as st with
  | nil => rfl
  | cons h hs ih =>
      cases as with
      | nil => rfl
      | cons a as => exact ih _ _

theorem capped_addLoop_isOk (m : ℚ) (hs : List Key) (as : List ℚ)
    (st : WeightedHashesCounter.Score) :
    (WeightedHashesCounter.addLoop m hs as st).isOk
      = decide (hs.length ≤ as.length) := by
  induction hs generalizing as st with
  | nil => simp [WeightedHashesCounter.addLoop, CppOutcome.isOk]
  | cons h hs ih =>
      cases as with
      | nil => simp [WeightedHashesCounter.addLoop, CppOutcome.isOk]
      | cons a as =>
          simp only [WeightedHashesCounter.addLoop]
          split <;> rw [ih] <;>
            simp only [List.length_cons, decide_eq_decide] <;> omega


theorem uncapped_addLoop_isOk (m : ℚ) (hs : List Key) (as : List ℚ)
    (st : WeightedHashesCounter.Score) :
    (WeightedHashesCounterUncapped.addLoop m hs as st).isOk
      = decide (hs.length ≤ as.length) := by
  induction hs generalizing as st with
  | nil => simp [WeightedHashesCounterUncapped.addLoop, CppOutcome.isOk]
  | cons h hs ih =>
      cases as with
      | nil => simp [WeightedHashesCounterUncapped.addLoop, CppOutcome.isOk]
      | cons a as =>
          simp only [WeightedHashesCounterUncapped.addLoop]
          rw [ih]
          simp

theorem setAssoc_not_mem {β : Type} (m : List (Key × β)) (k : Key) (v : β)
    (hk : k ∉ m.map Prod.fst) : setAssoc m k v = m ++ [(k, v)] := by
  induction m with
  | nil => rfl
  | cons e rest ih =>
      simp only [List.map_cons, List.mem_cons] at hk
      push_neg at hk
      simp [setAssoc, Ne.symm hk.1, ih hk.2]

theorem lookupAssoc_eq_none {β : Type} (m : List (Key × β)) (k : Key)
    (hk : k ∉ m.map Prod.fst) : lookupAssoc m k = none := by
  induction m with
  | nil => rfl
  | cons e rest ih =>
      simp only [List.map_cons, List.mem_cons] at hk
      push_neg at hk
      simp [lookupAssoc, Ne.symm hk.1, ih hk.2]

theorem roundFold (scores : List (Key × ℚ)) :
    ∀ (c0 : List (Key × Nat)) (k0 : Nat),
      (∀ e ∈ scores, e.1 ∉ c0.map Prod.fst) →
      (scores.map Prod.fst).Nodup →
      scores.foldl WeightedHashesCounter.roundStep (c0, k0)
        = (c0 ++ scores.filterMap WeightedHashesCounter.finalizeEntry,
           k0 + scores.countP (fun e => decide (truncU32 e.2 ≤ 1))) := by
  induction scores with
  | nil => intro c0 k0 _ _; simp
  | cons e rest ih =>
      intro c0 k0 hfresh hnd
      simp only [List.map_cons, List.nodup_cons] at hnd
      rw [List.foldl_cons]
      by_cases h1 : 1 < truncU32 e.2
      · have hstep : WeightedHashesCounter.roundStep (c0, k0) e
            = (c0 ++ [(e.1, truncU32 e.2)], k0) := by
          simp [WeightedHashesCounter.roundStep, h1,
            setAssoc_not_mem _ _ _ (hfresh e (by simp))]
        rw [hstep, ih _ k0 ?_ hnd.2]
        · simp [WeightedHashesCounter.finalizeEntry, h1, List.filterMap_cons,
            List.countP_cons, Nat.not_le.mpr h1]
        · intro e1 he1
          simp only [List.map_append, List.map_cons, List.map_nil, List.mem_append,
            List.mem_cons, List.not_mem_nil]
          push_neg
          refine ⟨hfresh e1 (List.mem_cons_of_mem _ he1), ?_, not_false⟩
          intro hcon
          exact hnd.1 (hcon ▸ List.mem_map.mpr ⟨e1, he1, rfl⟩)
      · have hstep : WeightedHashesCounter.roundStep (c0, k0) e = (c0, k0 + 1) := by
          simp [WeightedHashesCounter.roundStep, h1]
        rw [hstep, ih _ (k0 + 1) (fun e1 he1 => hfresh e1 (List.mem_cons_of_mem _ he1))
          hnd.2]
        have hnone : WeightedHashesCounter.finalizeEntry e = none := by
          simp [WeightedHashesCounter.finalizeEntry, h1]
        have hp : decide (truncU32 e.2 ≤ 1) = true := by
          simp [Nat.not_lt.mp h1]
        simp [List.filterMap_cons, hnone, List.countP_cons, hp]
        omega

theorem filterMap_keys_sub (scores : List (Key × ℚ)) (k : Key)
    (hk : k ∈ (scores.filterMap WeightedHashesCounter.finalizeEntry).map Prod.fst) :
    k ∈ scores.map Prod.fst := by
  simp only [List.mem_map, List.mem_filterMap] at hk ⊢
  obtain ⟨x, ⟨e, he, hfe⟩, hx⟩ := hk
  refine ⟨e, he, ?_⟩
  simp only [WeightedHashesCounter.finalizeEntry] at hfe
  split at hfe
  · cases hfe
    simpa using hx
  · cases hfe

theorem skipped_not_in_finalized (scores : List (Key × ℚ))
    (hnd : (scores.map Prod.fst).Nodup) :
    ∀ e ∈ scores, truncU32 e.2 ≤ 1 →
      lookupAssoc (scores.filterMap WeightedHashesCounter.finalizeEntry) e.1 = none := by
  induction scores with
  | nil =>
      intro e he
      simp at he
  | cons e0 rest ih =>
      intro e he hle
      simp only [List.map_cons, List.nodup_cons] at hnd
      rcases List.mem_cons.mp he with rfl | hmem
      · rw [List.filterMap_cons]
        have hnone : WeightedHashesCounter.finalizeEntry e = none := by
          simp [WeightedHashesCounter.finalizeEntry, Nat.not_lt.mpr hle]
        rw [hnone]
        exact lookupAssoc_eq_none _ _ (fun hin => hnd.1 (filterMap_keys_sub rest e.1 hin))
      · rw [List.filterMap_cons]
        cases hfe : WeightedHashesCounter.finalizeEntry e0 with
        | none => exact ih hnd.2 e hmem hle
        | some x =>
            have hx1 : x.1 = e0.1 := by
              simp only [WeightedHashesCounter.finalizeEntry] at hfe
              split at hfe
              · cases hfe
                rfl
              · cases hfe
            have hne : x.1 ≠ e.1 := by
              rw [hx1]
              intro hcon
              exact hnd.1 (hcon ▸ List.mem_map.mpr ⟨e, hmem, rfl⟩)
            have htail := ih hnd.2 e hmem hle
            simp [lookupAssoc, hne, htail]

/-! ## Claim theorems -/

/-- Claim C1 (code bug): iteration validity of the prune loops.  The three
`it = container.erase(it)` loops (`HashesCounter::remove_singletons`,
`keep_min_abundance`, and the hybrid counter's `round_scores`) never move an
invalidated cursor: their instrumented runs complete and return exactly the
surviving entries.  But `WeightedHashesCounter::round_scores` performs
`hash_to_score.erase(it)` on the element under the cursor and the `for`
header then executes `++it` on the invalidated cursor, so its instrumented
run is undefined behaviour (`none`) on every non-empty score map — contrary
to the claim that every prune pass erases only after the cursor has advanced
past the element. -/
theorem c1_weighted_round_scores_erases_under_cursor :
    (∀ st : HashesCounter.State,
       runPrune HashesCounter.removeSingletonsAction st
         = some (HashesCounter.remove_singletons st).1) ∧
    (∀ (t : Nat) (st : HashesCounter.State),
       runPrune (HashesCounter.keepMinAction t) st
         = some (HashesCounter.keep_min_abundance t st)) ∧
    (∀ st : SamplesKmerDosageHybridCounter.HState,
       runPrune SamplesKmerDosageHybridCounter.roundScoresAction st
         = some (SamplesKmerDosageHybridCounter.round_scores st).1) ∧
    (∀ (e : Key × ℚ) (st : WeightedHashesCounter.Score),
       runPrune WeightedHashesCounter.roundScoresAction (e :: st) = none) := by
  refine ⟨runPrune_removeSingletons, runPrune_keepMin, runPrune_hybridRound, ?_⟩
  intro e st
  rfl

/-- Claim C2 counterexample: a call to `WeightedHashesCounter::add_hashes`
with `hashes = [5]`, `abundances = [4, 6]` (different lengths!) and
`mean_abundance = 2` does not fail with an invalid-argument error: it
returns normally, having accumulated score 2 for hash 5. -/
theorem c2_counterexample_no_invalid_argument :
    ([5] : List Key).length ≠ ([4, 6] : List ℚ).length ∧
    WeightedHashesCounter.add_hashes [] [5] [4, 6] 2 = .ok [(5, 2)] ∧
    (WeightedHashesCounter.add_hashes [] [5] [4, 6] 2).isThrown = false := by
  refine ⟨by decide, ?_, capped_addLoop_not_thrown 2 [5] [4, 6] []⟩
  norm_num [WeightedHashesCounter.add_hashes, WeightedHashesCounter.addLoop,
    WeightedHashesCounter.bumpScore]

/-- Claim C2 amended: the weighted counters (capped and uncapped) perform no
length validation at all.  `add_hashes` never raises an invalid-argument
error; it returns normally exactly when `abundances` has at least as many
elements as `hashes` (extra abundances are silently ignored), and otherwise
the loop reads `abundances[i]` out of bounds (undefined behaviour).  Only
the hybrid counter validates the lengths. -/
theorem c2_amended_weighted_never_throws (st : WeightedHashesCounter.Score)
    (hashes : List Key) (abundances : List ℚ) (m : ℚ) :
    (WeightedHashesCounter.add_hashes st hashes abundances m).isThrown = false ∧
    (WeightedHashesCounterUncapped.add_hashes st hashes abundances m).isThrown = false ∧
    (WeightedHashesCounter.add_hashes st hashes abundances m).isOk
      = decide (hashes.length ≤ abundances.length) ∧
    (WeightedHashesCounterUncapped.add_hashes st hashes abundances m).isOk
      = decide (hashes.length ≤ abundances.length) := by
  exact ⟨capped_addLoop_not_thrown m hashes abundances st,
    uncapped_addLoop_not_thrown m hashes abundances st,
    capped_addLoop_isOk m hashes abundances st,
    uncapped_addLoop_isOk m hashes abundances st⟩

/-- Claim C5: the hybrid counter's `round_scores` removes exactly the
records with sample count `< 2`, returns the number removed, leaves every
surviving record (including its exact floating-point dosage) untouched, and
rounding to the nearest integer happens only in the export operation. -/
theorem c5_hybrid_finalize_exact (st : SamplesKmerDosageHybridCounter.HState) :
    (SamplesKmerDosageHybridCounter.round_scores st).1
      = st.filter (fun e => !decide (e.2.1 < 2)) ∧
    (SamplesKmerDosageHybridCounter.round_scores st).2
      = st.countP (fun e => decide (e.2.1 < 2)) ∧
    (∀ e ∈ (SamplesKmerDosageHybridCounter.round_scores st).1, e ∈ st) ∧
    SamplesKmerDosageHybridCounter.get_kmer_dosages
        (SamplesKmerDosageHybridCounter.round_scores st).1
      = ((SamplesKmerDosageHybridCounter.round_scores st).1).map
          (fun e => (cppRound e.2.2).toNat) := by
  refine ⟨?_, ?_, ?_, rfl⟩
  · rw [hybrid_round_scores_eq]
  · rw [hybrid_round_scores_eq]
  · intro e he
    rw [hybrid_round_scores_eq] at he
    exact List.mem_of_mem_filter he

/-- Claim C8: `HashesCounter::remove_singletons` removes exactly the records
with occurrence count 1 (and no others), returns the number removed, and
`size()` after the call equals `size()` before minus the returned count. -/
theorem c8_remove_singletons_exact (st : HashesCounter.State) :
    (HashesCounter.remove_singletons st).1 = st.filter (fun e => !decide (e.2 = 1)) ∧
    (HashesCounter.remove_singletons st).2 = st.countP (fun e => decide (e.2 = 1)) ∧
    HashesCounter.size (HashesCounter.remove_singletons st).1
      = HashesCounter.size st - (HashesCounter.remove_singletons st).2 := by
  refine ⟨?_, ?_, ?_⟩
  · rw [remove_singletons_eq]
  · rw [remove_singletons_eq]
  · rw [remove_singletons_eq]
    simp only [HashesCounter.size]
    rw [filter_length_sub]
    simp

/-- Claim C9: `keep_min_abundance` (both in `HashesCounter` and in
`WeightedHashesCounter`) removes exactly the records whose count is strictly
below the threshold, and it is idempotent: a second call with the same
threshold leaves the state unchanged. -/
theorem c9_keep_min_abundance_idempotent (t : Nat) (st : HashesCounter.State)
    (w : WeightedHashesCounter.WState) :
    HashesCounter.keep_min_abundance t st = st.filter (fun e => !decide (e.2 < t)) ∧
    HashesCounter.keep_min_abundance t (HashesCounter.keep_min_abundance t st)
      = HashesCounter.keep_min_abundance t st ∧
    WeightedHashesCounter.keep_min_abundance t (WeightedHashesCounter.keep_min_abundance t w)
      = WeightedHashesCounter.keep_min_abundance t w := by
  have hfix : ∀ l : HashesCounter.State,
      HashesCounter.keep_min_abundance t (HashesCounter.keep_min_abundance t l)
        = HashesCounter.keep_min_abundance t l := by
    intro l
    rw [keep_min_eq, keep_min_eq, List.filter_filter]
    simp
  refine ⟨keep_min_eq t st, hfix st, ?_⟩
  simp only [WeightedHashesCounter.keep_min_abundance]
  rw [hfix]

/-- Claim C4: `WeightedHashesCounter::round_scores` truncates every
accumulated score to an unsigned integer; a hash whose truncated value is
`> 1` ends with that value as its finalized count, every other hash is
dropped and counted by the skip counter, which is the return value; and a
hash with truncated score `<= 1` does not appear in the subsequent
`get_kmers` export.  Stated for the one-shot finalize of §3's phase
invariant: `hash_to_count` still empty, score keys unique. -/
theorem c4_round_scores_truncate_skip (s : WeightedHashesCounter.WState)
    (hempty : s.hash_to_count = [])
    (hnd : (s.hash_to_score.map Prod.fst).Nodup) :
    (WeightedHashesCounter.round_scores s).1.hash_to_count
      = s.hash_to_score.filterMap WeightedHashesCounter.finalizeEntry ∧
    (WeightedHashesCounter.round_scores s).2
      = s.hash_to_score.countP (fun e => decide (truncU32 e.2 ≤ 1)) ∧
    (WeightedHashesCounter.round_scores s).1.hash_to_score = [] ∧
    (∀ e ∈ s.hash_to_score, truncU32 e.2 ≤ 1 →
       lookupAssoc
         (WeightedHashesCounter.get_kmers (WeightedHashesCounter.round_scores s).1) e.1
         = none) := by
  have hfold := roundFold s.hash_to_score [] 0 (by simp) hnd
  refine ⟨?_, ?_, rfl, ?_⟩
  · simp [WeightedHashesCounter.round_scores, hempty, hfold]
  · simp [WeightedHashesCounter.round_scores, hempty, hfold]
  · intro e he hle
    have h1 : (WeightedHashesCounter.round_scores s).1.hash_to_count
        = s.hash_to_score.filterMap WeightedHashesCounter.finalizeEntry := by
      simp [WeightedHashesCounter.round_scores, hempty, hfold]
    simp only [WeightedHashesCounter.get_kmers, h1]
    exact skipped_not_in_finalized s.hash_to_score hnd e he hle

/-- Witness for C4 at a concrete state: empty count map, two accumulated
scores 5/2 (kept, truncated to 2) and 3/2 (skipped). -/
theorem c4_round_scores_truncate_skip_witness :
    (WeightedHashesCounter.WState.mk [] [(10, 5/2), (11, 3/2)]).hash_to_count = [] ∧
    (((WeightedHashesCounter.WState.mk [] [(10, 5/2), (11, 3/2)]).hash_to_score.map
        Prod.fst).Nodup) ∧
    ((WeightedHashesCounter.round_scores
        (WeightedHashesCounter.WState.mk [] [(10, 5/2), (11, 3/2)])).1.hash_to_count
      = (WeightedHashesCounter.WState.mk [] [(10, 5/2), (11, 3/2)]).hash_to_score.filterMap
          WeightedHashesCounter.finalizeEntry ∧
     (WeightedHashesCounter.round_scores
        (WeightedHashesCounter.WState.mk [] [(10, 5/2), (11, 3/2)])).2
      = (WeightedHashesCounter.WState.mk
          [] [(10, 5/2), (11, 3/2)]).hash_to_score.countP
            (fun e => decide (truncU32 e.2 ≤ 1)) ∧
     (WeightedHashesCounter.round_scores
        (WeightedHashesCounter.WState.mk [] [(10, 5/2), (11, 3/2)])).1.hash_to_score = [] ∧
     (∀ e ∈ (WeightedHashesCounter.WState.mk [] [(10, 5/2), (11, 3/2)]).hash_to_score,
        truncU32 e.2 ≤ 1 →
        lookupAssoc
          (WeightedHashesCounter.get_kmers
            (WeightedHashesCounter.round_scores
              (WeightedHashesCounter.WState.mk [] [(10, 5/2), (11, 3/2)])).1) e.1
          = none)) :=
  ⟨rfl, by simp,
   c4_round_scores_truncate_skip (WeightedHashesCounter.WState.mk [] [(10, 5/2), (11, 3/2)])
     rfl (by simp)⟩

theorem capped_addLoop_applyScores (m : ℚ) : ∀ (hs : List Key) (as : List ℚ)
    (st : WeightedHashesCounter.Score), hs.length = as.length →
    WeightedHashesCounter.addLoop m hs as st
      = .ok (WeightedHashesCounter.applyScores st
          ((hs.zip as).map
            (fun p => (p.1, WeightedHashesCounter.cappedContribution m p.2)))) := by
  intro hs
  induction hs with
  | nil =>
      intro as st hlen
      cases as with
      | nil => rfl
      | cons a as => simp at hlen
  | cons h hs ih =>
      intro as st hlen
      cases as with
      | nil => simp at hlen
      | cons a as =>
          simp only [WeightedHashesCounter.addLoop, List.zip_cons_cons, List.map_cons,
            WeightedHashesCounter.applyScores]
          by_cases hc : 2 ≤ a * (1 / m)
          · rw [if_pos hc,
              show WeightedHashesCounter.cappedContribution m a = 2 by
                simp only [WeightedHashesCounter.cappedContribution]
                rw [if_pos hc]]
            exact ih as _ (by simpa using hlen)
          · rw [if_neg hc,
              show WeightedHashesCounter.cappedContribution m a = a * (1 / m) by
                simp only [WeightedHashesCounter.cappedContribution]
                rw [if_neg hc]]
            exact ih as _ (by simpa using hlen)

theorem uncapped_addLoop_applyScores (m : ℚ) : ∀ (hs : List Key) (as : List ℚ)
    (st : WeightedHashesCounter.Score), hs.length = as.length →
    WeightedHashesCounterUncapped.addLoop m hs as st
      = .ok (WeightedHashesCounter.applyScores st
          ((hs.zip as).map (fun p => (p.1, p.2 * (1 / m))))) := by
  intro hs
  induction hs with
  | nil =>
      intro as st hlen
      cases as with
      | nil => rfl
      | cons a as => simp at hlen
  | cons h hs ih =>
      intro as st hlen
      cases as with
      | nil => simp at hlen
      | cons a as =>
          simp only [WeightedHashesCounterUncapped.addLoop, List.zip_cons_cons,
            List.map_cons, WeightedHashesCounter.applyScores]
          exact ih as _ (by simpa using hlen)

/-- Claim C6: per index, the capped `add_hashes` adds exactly the cap (2)
when `normalized = abundances[i] / mean_abundance >= 2` and `normalized`
otherwise; the uncapped variant always adds `normalized`; and on any batch
whose normalized values are all strictly below the cap, the capped and
uncapped `add_hashes` produce identical score states. -/
theorem c6_capping_policy (st : WeightedHashesCounter.Score) (m : ℚ)
    (hashes : List Key) (abunds : List ℚ)
    (hlen : hashes.length = abunds.length) :
    WeightedHashesCounter.add_hashes st hashes abunds m
      = .ok (WeightedHashesCounter.applyScores st
          ((hashes.zip abunds).map
            (fun p => (p.1, WeightedHashesCounter.cappedContribution m p.2)))) ∧
    WeightedHashesCounterUncapped.add_hashes st hashes abunds m
      = .ok (WeightedHashesCounter.applyScores st
          ((hashes.zip abunds).map (fun p => (p.1, p.2 * (1 / m))))) ∧
    ((∀ a ∈ abunds, a * (1 / m) < 2) →
      WeightedHashesCounter.add_hashes st hashes abunds m
        = WeightedHashesCounterUncapped.add_hashes st hashes abunds m) := by
  refine ⟨capped_addLoop_applyScores m hashes abunds st hlen,
    uncapped_addLoop_applyScores m hashes abunds st hlen, ?_⟩
  intro hbelow
  rw [WeightedHashesCounter.add_hashes, WeightedHashesCounterUncapped.add_hashes,
    capped_addLoop_applyScores m hashes abunds st hlen,
    uncapped_addLoop_applyScores m hashes abunds st hlen]
  have hmap : (hashes.zip abunds).map
      (fun p => (p.1, WeightedHashesCounter.cappedContribution m p.2))
      = (hashes.zip abunds).map (fun p => (p.1, p.2 * (1 / m))) := by
    apply List.map_congr_left
    intro p hp
    have hpa : p.2 ∈ abunds := (List.of_mem_zip hp).2
    have hnc : ¬ (2 : ℚ) ≤ p.2 * (1 / m) := not_le.mpr (hbelow p.2 hpa)
    simp only [WeightedHashesCounter.cappedContribution]
    rw [if_neg hnc]
  rw [hmap]

/-- Witness for C6: batch `hashes = [1, 2]`, `abundances = [10, 3]`,
`mean_abundance = 2` (normalized 5 is capped at 2, normalized 3/2 is added
as is). -/
theorem c6_capping_policy_witness :
    ([1, 2] : List Key).length = ([10, 3] : List ℚ).length ∧
    (WeightedHashesCounter.add_hashes [] [1, 2] [10, 3] 2
      = .ok (WeightedHashesCounter.applyScores []
          ((([1, 2] : List Key).zip ([10, 3] : List ℚ)).map
            (fun p => (p.1, WeightedHashesCounter.cappedContribution 2 p.2)))) ∧
     WeightedHashesCounterUncapped.add_hashes [] [1, 2] [10, 3] 2
      = .ok (WeightedHashesCounter.applyScores []
          ((([1, 2] : List Key).zip ([10, 3] : List ℚ)).map
            (fun p => (p.1, p.2 * (1 / 2))))) ∧
     ((∀ a ∈ ([10, 3] : List ℚ), a * (1 / 2) < 2) →
       WeightedHashesCounter.add_hashes [] [1, 2] [10, 3] 2
         = WeightedHashesCounterUncapped.add_hashes [] [1, 2] [10, 3] 2)) :=
  ⟨rfl, c6_capping_policy [] 2 [1, 2] [10, 3] rfl⟩


theorem one_mod_u32 : (0 + 1) % U32 = 1 := by norm_num [U32]

theorem sampleCountOf_tryEmplaceBump (st : SamplesKmerDosageHybridCounter.HState)
    (h : Key) (d : ℚ) (k : Key) :
    SamplesKmerDosageHybridCounter.sampleCountOf
        (SamplesKmerDosageHybridCounter.tryEmplaceBump st h d) k
      = if k = h then
          some (((SamplesKmerDosageHybridCounter.sampleCountOf st k).getD 0 + 1) % U32)
        else SamplesKmerDosageHybridCounter.sampleCountOf st k := by
  induction st with
  | nil =>
      by_cases hk : k = h
      · subst hk
        simp [SamplesKmerDosageHybridCounter.tryEmplaceBump,
          SamplesKmerDosageHybridCounter.sampleCountOf, lookupAssoc, one_mod_u32]
      · simp [SamplesKmerDosageHybridCounter.tryEmplaceBump,
          SamplesKmerDosageHybridCounter.sampleCountOf, lookupAssoc, hk, Ne.symm hk]
  | cons e rest ih =>
      by_cases he : e.1 = h
      · by_cases hk : k = h
        · subst hk
          simp [SamplesKmerDosageHybridCounter.tryEmplaceBump,
            SamplesKmerDosageHybridCounter.sampleCountOf, lookupAssoc, he]
        · have hhk : h ≠ k := fun hco => hk hco.symm
          simp [SamplesKmerDosageHybridCounter.tryEmplaceBump,
            SamplesKmerDosageHybridCounter.sampleCountOf, lookupAssoc, he, hhk, hk]
      · by_cases hek : e.1 = k
        · have hk : ¬ k = h := by
            rw [← hek]
            exact fun hco => he hco
          simp [SamplesKmerDosageHybridCounter.tryEmplaceBump,
            SamplesKmerDosageHybridCounter.sampleCountOf, lookupAssoc, he, hek, hk]
        · simp only [SamplesKmerDosageHybridCounter.tryEmplaceBump, if_neg he,
            SamplesKmerDosageHybridCounter.sampleCountOf, lookupAssoc, if_neg hek]
          exact ih

theorem hybrid_addLoop_count (m : ℚ) : ∀ (hs : List Key) (as : List ℚ)
    (st st1 : SamplesKmerDosageHybridCounter.HState),
    SamplesKmerDosageHybridCounter.addLoop m hs as st = .ok st1 → ∀ k : Key,
    SamplesKmerDosageHybridCounter.sampleCountOf st1 k
      = if hs.count k = 0 then SamplesKmerDosageHybridCounter.sampleCountOf st k
        else some (((SamplesKmerDosageHybridCounter.sampleCountOf st k).getD 0
            + hs.count k) % U32) := by
  intro hs
  induction hs with
  | nil =>
      intro as st st1 hok k
      simp only [SamplesKmerDosageHybridCounter.addLoop, CppOutcome.ok.injEq] at hok
      simp [hok]
  | cons h hs ih =>
      intro as st st1 hok k
      cases as with
      | nil => simp [SamplesKmerDosageHybridCounter.addLoop] at hok
      | cons a as =>
          simp only [SamplesKmerDosageHybridCounter.addLoop] at hok
          by_cases hneg : a * (1 / m) < 0
          · rw [if_pos hneg] at hok
            cases hok
          · rw [if_neg hneg] at hok
            have hstep := sampleCountOf_tryEmplaceBump st h (a * (1 / m)) k
            have hrec := ih as _ st1 hok k
            by_cases hk : k = h
            · rw [hstep, if_pos hk] at hrec
              rw [hrec]
              have hcnt : (h :: hs).count k = hs.count k + 1 := by
                simp [List.count_cons, hk]
              rw [hcnt]
              by_cases hz : hs.count k = 0
              · rw [if_pos hz, hz, if_neg (by omega : ¬ (0 : Nat) + 1 = 0)]
              · rw [if_neg hz, if_neg (by omega : ¬ hs.count k + 1 = 0)]
                simp only [Option.getD_some, Option.some.injEq]
                rw [Nat.mod_add_mod]
                have harg : (SamplesKmerDosageHybridCounter.sampleCountOf st k).getD 0 + 1
                    + hs.count k
                    = (SamplesKmerDosageHybridCounter.sampleCountOf st k).getD 0
                      + (hs.count k + 1) := by omega
                rw [harg]
            · rw [hstep, if_neg hk] at hrec
              have hcnt : (h :: hs).count k = hs.count k := by
                simp [List.count_cons, hk]
              rw [hrec, hcnt]

theorem hybrid_ingestAll_count : ∀ (batches : List (List Key × List ℚ × ℚ))
    (st st1 : SamplesKmerDosageHybridCounter.HState),
    SamplesKmerDosageHybridCounter.ingestAll batches st = .ok st1 → ∀ k : Key,
    SamplesKmerDosageHybridCounter.sampleCountOf st1 k
      = if (batches.map (fun b => b.1.count k)).sum = 0 then
          SamplesKmerDosageHybridCounter.sampleCountOf st k
        else some (((SamplesKmerDosageHybridCounter.sampleCountOf st k).getD 0
            + (batches.map (fun b => b.1.count k)).sum) % U32) := by
  intro batches
  induction batches with
  | nil =>
      intro st st1 hok k
      simp only [SamplesKmerDosageHybridCounter.ingestAll, CppOutcome.ok.injEq] at hok
      simp [hok]
  | cons b bs ih =>
      intro st st1 hok k
      simp only [SamplesKmerDosageHybridCounter.ingestAll] at hok
      cases hadd : SamplesKmerDosageHybridCounter.add_hashes st b.1 b.2.1 b.2.2 with
      | ok stm =>
          rw [hadd] at hok
          have hloop : SamplesKmerDosageHybridCounter.addLoop b.2.2 b.1 b.2.1 st
              = .ok stm := by
            simp only [SamplesKmerDosageHybridCounter.add_hashes] at hadd
            split at hadd
            · cases hadd
            · exact hadd
          have h1 := hybrid_addLoop_count b.2.2 b.1 b.2.1 st stm hloop k
          have h2 := ih stm st1 hok k
          simp only [List.map_cons, List.sum_cons]
          by_cases hc1 : b.1.count k = 0
          · rw [if_pos hc1] at h1
            by_cases hc2 : (bs.map (fun b => b.1.count k)).sum = 0
            · rw [if_pos hc2] at h2
              rw [h2, h1, if_pos (by omega)]
            · rw [if_neg hc2] at h2
              rw [h2, h1, if_neg (by omega), hc1]
              simp
          · rw [if_neg hc1] at h1
            by_cases hc2 : (bs.map (fun b => b.1.count k)).sum = 0
            · rw [if_pos hc2] at h2
              rw [h2, h1, if_neg (by omega), hc2]
              simp
            · rw [if_neg hc2] at h2
              rw [h2, h1, if_neg (by omega)]
              simp only [Option.getD_some, Option.some.injEq]
              rw [Nat.mod_add_mod]
              have harg : (SamplesKmerDosageHybridCounter.sampleCountOf st k).getD 0
                  + b.1.count k + (bs.map (fun b => b.1.count k)).sum
                  = (SamplesKmerDosageHybridCounter.sampleCountOf st k).getD 0
                    + (b.1.count k + (bs.map (fun b => b.1.count k)).sum) := by omega
              rw [harg]
      | thrown msg sthr =>
          rw [hadd] at hok
          cases hok
      | undefinedBehavior =>
          rw [hadd] at hok
          cases hok

theorem hybrid_addLoop_neg_throw (m : ℚ) : ∀ (hs1 : List Key) (a1 : List ℚ)
    (hh : Key) (aa : ℚ) (hs2 : List Key) (a2 : List ℚ)
    (st : SamplesKmerDosageHybridCounter.HState),
    hs1.length = a1.length →
    (∀ b ∈ a1, 0 ≤ b * (1 / m)) →
    aa * (1 / m) < 0 →
    SamplesKmerDosageHybridCounter.addLoop m (hs1 ++ hh :: hs2) (a1 ++ aa :: a2) st
      = .thrown "kmer_dosage cannot be negative."
          (SamplesKmerDosageHybridCounter.applyBatch m hs1 a1 st) := by
  intro hs1
  induction hs1 with
  | nil =>
      intro a1 hh aa hs2 a2 st hlen _ hneg
      cases a1 with
      | nil =>
          simp only [List.nil_append, SamplesKmerDosageHybridCounter.addLoop]
          rw [if_pos hneg]
          rfl
      | cons a a1 => simp at hlen
  | cons h hs1 ih =>
      intro a1 hh aa hs2 a2 st hlen hnn hneg
      cases a1 with
      | nil => simp at hlen
      | cons a a1 =>
          simp only [List.cons_append, SamplesKmerDosageHybridCounter.addLoop,
            List.append_eq]
          rw [if_neg (not_lt.mpr (hnn a (by simp)))]
          rw [ih a1 hh aa hs2 a2 _ (by simpa using hlen)
            (fun b hb => hnn b (List.mem_cons_of_mem _ hb)) hneg]
          rfl

/-- Claim C3 counterexample: a single `ingest` call on an empty hybrid
counter whose batch contains hash 9 twice stores sample-count 2 for hash 9,
not 1, although hash 9 appeared in exactly one ingest call. -/
theorem c3_counterexample_within_batch :
    SamplesKmerDosageHybridCounter.add_hashes [] [9, 9] [4, 4] 2 = .ok [(9, (2, 4))] ∧
    SamplesKmerDosageHybridCounter.sampleCountOf [(9, (2, 4))] 9 = some 2 ∧
    (2 : Nat) ≠ 1 := by
  refine ⟨?_, rfl, by decide⟩
  norm_num [SamplesKmerDosageHybridCounter.add_hashes,
    SamplesKmerDosageHybridCounter.addLoop,
    SamplesKmerDosageHybridCounter.tryEmplaceBump, U32]

/-- Claim C3 amended: after any successful sequence of `ingest`
(`add_hashes`) calls starting from the empty hybrid counter, the stored
sample-count of every hash equals the total number of occurrences of that
hash across all ingested batches (mod `2^32`), with repeats inside a single
batch each contributing 1 — not the number of distinct calls whose batch
contained the hash. -/
theorem c3_amended_count_per_occurrence (batches : List (List Key × List ℚ × ℚ))
    (st1 : SamplesKmerDosageHybridCounter.HState)
    (hok : SamplesKmerDosageHybridCounter.ingestAll batches [] = .ok st1) (h : Key) :
    SamplesKmerDosageHybridCounter.sampleCountOf st1 h
      = if (batches.map (fun b => b.1.count h)).sum = 0 then none
        else some ((batches.map (fun b => b.1.count h)).sum % U32) := by
  have hc := hybrid_ingestAll_count batches [] st1 hok h
  simpa [SamplesKmerDosageHybridCounter.sampleCountOf, lookupAssoc] using hc

/-- Witness for the amended C3: hash 9 ingested once in each of two batches
ends with sample-count 2, its total occurrence count. -/
theorem c3_amended_count_per_occurrence_witness :
    SamplesKmerDosageHybridCounter.ingestAll [([9], [4], 2), ([9], [6], 2)] []
      = .ok [(9, (2, 5))] ∧
    SamplesKmerDosageHybridCounter.sampleCountOf [(9, (2, 5))] 9
      = if ((([([9], [4], 2), ([9], [6], 2)] : List (List Key × List ℚ × ℚ)).map
            (fun b => b.1.count 9)).sum = 0) then none
        else some ((([([9], [4], 2), ([9], [6], 2)] : List (List Key × List ℚ × ℚ)).map
            (fun b => b.1.count 9)).sum % U32) := by
  have hok : SamplesKmerDosageHybridCounter.ingestAll [([9], [4], 2), ([9], [6], 2)] []
      = .ok [(9, (2, 5))] := by
    norm_num [SamplesKmerDosageHybridCounter.ingestAll,
      SamplesKmerDosageHybridCounter.add_hashes,
      SamplesKmerDosageHybridCounter.addLoop,
      SamplesKmerDosageHybridCounter.tryEmplaceBump, U32]
  exact ⟨hok, c3_amended_count_per_occurrence [([9], [4], 2), ([9], [6], 2)] [(9, (2, 5))]
    hok 9⟩

/-- Claim C10: the hybrid `add_hashes` validates the length precondition
before touching any state, so a length-mismatch throw leaves the counter
unchanged; the negative-dosage throw happens mid-loop at the first
offending index, so the contributions of all earlier indices of the batch
have already been applied and remain in the state at the throw. -/
theorem c10_hybrid_error_states (st : SamplesKmerDosageHybridCounter.HState)
    (hashes : List Key) (abunds : List ℚ) (m : ℚ) :
    (hashes.length ≠ abunds.length →
       SamplesKmerDosageHybridCounter.add_hashes st hashes abunds m
         = .thrown "hashes and abundances vectors must be of the same size." st) ∧
    (∀ (hs1 hs2 : List Key) (a1 a2 : List ℚ) (hh : Key) (aa : ℚ),
       hashes = hs1 ++ hh :: hs2 → abunds = a1 ++ aa :: a2 →
       hs1.length = a1.length → hs2.length = a2.length →
       (∀ b ∈ a1, 0 ≤ b * (1 / m)) → aa * (1 / m) < 0 →
       SamplesKmerDosageHybridCounter.add_hashes st hashes abunds m
         = .thrown "kmer_dosage cannot be negative."
             (SamplesKmerDosageHybridCounter.applyBatch m hs1 a1 st)) := by
  constructor
  · intro hne
    rw [SamplesKmerDosageHybridCounter.add_hashes, if_pos hne]
  · intro hs1 hs2 a1 a2 hh aa hh1 hh2 hl1 hl2 hnn hneg
    subst hh1
    subst hh2
    have hlen : (hs1 ++ hh :: hs2).length = (a1 ++ aa :: a2).length := by
      simp [hl1, hl2]
    rw [SamplesKmerDosageHybridCounter.add_hashes, if_neg (by omega)]
    exact hybrid_addLoop_neg_throw m hs1 a1 hh aa hs2 a2 st hl1 hnn hneg

/-- Witness for C10: a mismatched call leaves the empty state unchanged; the
batch `[1, 2, 3]` with abundances `[4, -6, 8]` and mean 2 throws at index 1,
with exactly the index-0 contribution applied. -/
theorem c10_hybrid_error_states_witness :
    SamplesKmerDosageHybridCounter.add_hashes [] [1] ([] : List ℚ) 2
      = .thrown "hashes and abundances vectors must be of the same size." [] ∧
    SamplesKmerDosageHybridCounter.add_hashes [] [1, 2, 3] [4, -6, 8] 2
      = .thrown "kmer_dosage cannot be negative."
          (SamplesKmerDosageHybridCounter.applyBatch 2 [1] [4] []) :=
  ⟨(c10_hybrid_error_states [] [1] [] 2).1 (by decide),
   (c10_hybrid_error_states [] [1, 2, 3] [4, -6, 8] 2).2 [1] [3] [4] [8] 2 (-6)
     rfl rfl rfl rfl (by norm_num) (by norm_num)⟩

/-- Witness for C5 at a concrete state: a singleton record (dropped) and a
record seen in 3 samples with dosage 7/2 (kept, exported rounded). -/
theorem c5_hybrid_finalize_exact_witness :
    (SamplesKmerDosageHybridCounter.round_scores [(1, (1, 1/2)), (2, (3, 7/2))]).1
      = ([(1, (1, 1/2)), (2, (3, 7/2))] : SamplesKmerDosageHybridCounter.HState).filter
          (fun e => !decide (e.2.1 < 2)) ∧
    (SamplesKmerDosageHybridCounter.round_scores [(1, (1, 1/2)), (2, (3, 7/2))]).2
      = ([(1, (1, 1/2)), (2, (3, 7/2))] : SamplesKmerDosageHybridCounter.HState).countP
          (fun e => decide (e.2.1 < 2)) ∧
    (∀ e ∈ (SamplesKmerDosageHybridCounter.round_scores
        [(1, (1, 1/2)), (2, (3, 7/2))]).1,
       e ∈ ([(1, (1, 1/2)), (2, (3, 7/2))] : SamplesKmerDosageHybridCounter.HState)) ∧
    SamplesKmerDosageHybridCounter.get_kmer_dosages
        (SamplesKmerDosageHybridCounter.round_scores [(1, (1, 1/2)), (2, (3, 7/2))]).1
      = ((SamplesKmerDosageHybridCounter.round_scores
          [(1, (1, 1/2)), (2, (3, 7/2))]).1).map (fun e => (cppRound e.2.2).toNat) :=
  c5_hybrid_finalize_exact [(1, (1, 1/2)), (2, (3, 7/2))]

theorem rne_eq_of_lt_half (n : ℤ) (q : ℚ) (h1 : (n : ℚ) ≤ q) (h2 : q < n + 1/2) :
    rne q = n := by
  have hfloor : ⌊q⌋ = n := by
    rw [Int.floor_eq_iff]
    refine ⟨h1, by linarith⟩
  have hnotie : ¬ 2 * Int.fract q = 1 := by
    rw [← Int.self_sub_floor, hfloor]
    intro hcon
    linarith
  rw [rne, if_neg hnotie, round_eq, Int.floor_eq_iff]
  constructor
  · linarith
  · linarith

theorem int_log_eq (q : ℚ) (e : ℤ) (hq : 0 < q) (h1 : (2:ℚ)^e ≤ q)
    (h2 : q < (2:ℚ)^(e+1)) : Int.log 2 q = e := by
  have ha : e ≤ Int.log 2 q := by
    rw [← Int.zpow_le_iff_le_log one_lt_two hq]
    push_cast
    exact h1
  have hb : Int.log 2 q < e + 1 := by
    rw [← Int.lt_zpow_iff_log_lt one_lt_two hq]
    push_cast
    exact h2
  omega

theorem rn32_eq (q : ℚ) (e n : ℤ) (hq : 0 < q) (hlog : Int.log 2 q = e)
    (hrne : rne (q * 2 ^ (23 - e)) = n) : rn32 q = (n : ℚ) * 2 ^ (e - 23) := by
  rw [rn32, if_neg (ne_of_gt hq), if_neg (not_lt.mpr hq.le), hlog, hrne]

theorem rn32_one : rn32 1 = 1 := by
  have h := rn32_eq 1 0 8388608 (by norm_num) (Int.log_one_right 2)
    (by
      rw [show ((1:ℚ) * 2 ^ ((23:ℤ) - 0)) = 8388608 by norm_num]
      exact rne_eq_of_lt_half 8388608 8388608 (by norm_num) (by norm_num))
  rw [h]
  norm_num

theorem rn32_half : rn32 (1/2) = 1/2 := by
  have h := rn32_eq (1/2) (-1) 8388608 (by norm_num)
    (int_log_eq (1/2) (-1) (by norm_num) (by norm_num) (by norm_num))
    (by
      rw [show ((1:ℚ)/2 * 2 ^ ((23:ℤ) - (-1))) = 8388608 by norm_num]
      exact rne_eq_of_lt_half 8388608 8388608 (by norm_num) (by norm_num))
  rw [h]
  norm_num

theorem rn32_recip41 : rn32 (1/41) = 13094412/536870912 := by
  have h := rn32_eq (1/41) (-6) 13094412 (by norm_num)
    (int_log_eq (1/41) (-6) (by norm_num) (by norm_num) (by norm_num))
    (by
      rw [show ((1:ℚ)/41 * 2 ^ ((23:ℤ) - (-6))) = 536870912/41 by norm_num]
      exact rne_eq_of_lt_half 13094412 (536870912/41) (by norm_num) (by norm_num))
  rw [h]
  norm_num

theorem rn32_prod41 : rn32 ((536870892 : ℚ)/536870912) = 1 - 1/2^24 := by
  have h := rn32_eq (536870892/536870912) (-1) 16777215 (by norm_num)
    (int_log_eq (536870892/536870912) (-1) (by norm_num) (by norm_num) (by norm_num))
    (by
      rw [show ((536870892:ℚ)/536870912 * 2 ^ ((23:ℤ) - (-1))) = 536870892/32 by norm_num]
      exact rne_eq_of_lt_half 16777215 (536870892/32) (by norm_num) (by norm_num))
  rw [h]
  norm_num

/-- Claim C7 counterexample: with `abundance = mean_abundance = 41.0f` the
program's per-contribution score is the binary32 value
`rn32 (41 * rn32 (1/41)) = 1 - 2^(-24)` (that is, `0.99999994f`), not
exactly 1.0: the reciprocal-multiply `abundances[i] * (1.0f/mean)` of the
source is not exact, unlike the division `abundances[i] / mean` the spec
describes. -/
theorem c7_counterexample_reciprocal_multiply :
    floatContribution 41 41 = 1 - 1/2^24 ∧ floatContribution 41 41 ≠ 1 := by
  have h1 : floatContribution 41 41 = 1 - 1/2^24 := by
    rw [floatContribution, rn32_recip41,
      show (41:ℚ) * (13094412/536870912) = 536870892/536870912 by norm_num,
      rn32_prod41]
  refine ⟨h1, ?_⟩
  rw [h1]
  norm_num

/-- Claim C7 amended: the per-contribution score for a pair with
`abundances[i] == mean_abundance` is the binary32 value
`rn32 (m * rn32 (1/m))`; it equals exactly 1.0 whenever the mean's
reciprocal is exactly representable in binary32 (for instance any
power-of-two mean), but not for every mean (mean 41 gives `1 - 2^(-24)`,
see the counterexample); repeated ingestion of the same hash accumulates
the contributions additively in its score. -/
theorem c7_amended_unit_score_float (st : WeightedHashesCounter.Score) (h : Key)
    (m : ℚ) (hm : m ≠ 0) (hrep : rn32 (1 / m) = 1 / m) :
    floatContribution m m = 1 ∧
    (∀ (s : WeightedHashesCounter.Score) (q : ℚ),
       WeightedHashesCounter.scoreOf (WeightedHashesCounter.bumpScore s h q) h
         = WeightedHashesCounter.scoreOf s h + q) ∧
    (∀ n : Nat,
       WeightedHashesCounter.scoreOf
           ((fun t => WeightedHashesCounter.bumpScore t h (floatContribution m m))^[n]
             st) h
         = WeightedHashesCounter.scoreOf st h + n) := by
  have hone : floatContribution m m = 1 := by
    rw [floatContribution, hrep, one_div, mul_inv_cancel₀ hm, rn32_one]
  have hadd : ∀ (s : WeightedHashesCounter.Score) (q : ℚ),
      WeightedHashesCounter.scoreOf (WeightedHashesCounter.bumpScore s h q) h
        = WeightedHashesCounter.scoreOf s h + q := by
    intro s q
    induction s with
    | nil =>
        simp [WeightedHashesCounter.bumpScore, WeightedHashesCounter.scoreOf, lookupAssoc]
    | cons e rest ih =>
        by_cases he : e.1 = h
        · simp [WeightedHashesCounter.bumpScore, he, WeightedHashesCounter.scoreOf,
            lookupAssoc]
        · simp only [WeightedHashesCounter.bumpScore, if_neg he,
            WeightedHashesCounter.scoreOf, lookupAssoc]
          exact ih
  refine ⟨hone, hadd, ?_⟩
  intro n
  induction n with
  | zero => simp
  | succ n ih =>
      rw [Function.iterate_succ_apply', hadd, ih, hone]
      push_cast
      ring

/-- Witness for the amended C7 at `st = []`, `h = 7`, `mean = 2` — the
reciprocal 0.5 is exactly representable, so the contribution is exactly 1. -/
theorem c7_amended_unit_score_float_witness :
    ((2:ℚ) ≠ 0 ∧ rn32 (1 / 2) = 1 / 2) ∧
    (floatContribution 2 2 = 1 ∧
     (∀ (s : WeightedHashesCounter.Score) (q : ℚ),
        WeightedHashesCounter.scoreOf (WeightedHashesCounter.bumpScore s 7 q) 7
          = WeightedHashesCounter.scoreOf s 7 + q) ∧
     (∀ n : Nat,
        WeightedHashesCounter.scoreOf
            ((fun t => WeightedHashesCounter.bumpScore t 7 (floatContribution 2 2))^[n]
              ([] : WeightedHashesCounter.Score)) 7
          = WeightedHashesCounter.scoreOf [] 7 + n)) :=
  ⟨⟨by norm_num, rn32_half⟩, c7_amended_unit_score_float [] 7 2 (by norm_num) rn32_half⟩

end QuantSig
